import Mathlib

/-!
Verification of the content-rewriting proxy engine (Express forward proxy).

Shallow embedding of the server's core algorithms:
* the origin codec (`encodeOrigin` / `decodeOrigin`, src/server.js base64url helpers),
* a model of WHATWG URL parsing restricted to the http/https origins the
  proxy handles,
* the Set-Cookie / Location header sanitizers,
* the proxy request handler's control flow (routing, history recording,
  HTML-rewrite error handling),
* the dual-backend history store (better-sqlite3 vs in-memory fallback).

Machine integers do not occur (JS numbers used here stay small and exact);
byte strings are `List Nat` with values < 256, text is `List Char`.
-/

/-! ## Base64 (standard and URL-safe) over byte lists

`Buffer.from(origin,'utf8').toString('base64')` groups bytes in threes and
emits 6-bit groups as characters, padding with `=` to a multiple of four.
`sextetsOfBytes` produces the 6-bit groups; `bytesOfSextets` inverts it. -/

def sextetsOfBytes : List Nat → List Nat
  | [] => []
  | [a] => [a / 4, a % 4 * 16]
  | [a, b] => [a / 4, a % 4 * 16 + b / 16, b % 16 * 4]
  | a :: b :: c :: rest =>
      a / 4 :: (a % 4 * 16 + b / 16) :: (b % 16 * 4 + c / 64) :: c % 64 :: sextetsOfBytes rest

def bytesOfSextets : List Nat → List Nat
  | [] => []
  | [_] => []
  | [w, x] => [w * 4 + x / 16]
  | [w, x, y] => [w * 4 + x / 16, x % 16 * 16 + y / 4]
  | w :: x :: y :: z :: rest =>
      (w * 4 + x / 16) :: (x % 16 * 16 + y / 4) :: (y % 4 * 64 + z) :: bytesOfSextets rest

theorem bytesOfSextets_sextetsOfBytes (l : List Nat) (hl : ∀ b ∈ l, b < 256) :
    bytesOfSextets (sextetsOfBytes l) = l := by
  induction l using sextetsOfBytes.induct with
  | case1 => rfl
  | case2 a =>
      have ha := hl a (by simp)
      simp only [sextetsOfBytes, bytesOfSextets, List.cons.injEq, and_true]
      omega
  | case3 a b =>
      have ha := hl a (by simp)
      have hb := hl b (by simp)
      simp only [sextetsOfBytes, bytesOfSextets, List.cons.injEq, and_true]
      omega
  | case4 a b c rest ih =>
      have ha := hl a (by simp)
      have hb := hl b (by simp)
      have hc := hl c (by simp)
      have hrest : ∀ x ∈ rest, x < 256 := fun x hx => hl x (by simp [hx])
      simp only [sextetsOfBytes, bytesOfSextets, ih hrest, List.cons.injEq, and_true]
      omega

theorem sextetsOfBytes_lt (l : List Nat) (hl : ∀ b ∈ l, b < 256) :
    ∀ s ∈ sextetsOfBytes l, s < 64 := by
  induction l using sextetsOfBytes.induct with
  | case1 => simp [sextetsOfBytes]
  | case2 a =>
      have ha := hl a (by simp)
      simp only [sextetsOfBytes]
      intro s hs
      simp only [List.mem_cons, List.mem_singleton, List.not_mem_nil, or_false] at hs
      rcases hs with h | h <;> omega
  | case3 a b =>
      have ha := hl a (by simp)
      have hb := hl b (by simp)
      simp only [sextetsOfBytes]
      intro s hs
      simp only [List.mem_cons, List.not_mem_nil, or_false] at hs
      rcases hs with h | h | h <;> omega
  | case4 a b c rest ih =>
      have ha := hl a (by simp)
      have hb := hl b (by simp)
      have hc := hl c (by simp)
      have hrest : ∀ x ∈ rest, x < 256 := fun x hx => hl x (by simp [hx])
      simp only [sextetsOfBytes]
      intro s hs
      simp only [List.mem_cons] at hs
      rcases hs with h | h | h | h | h
      · omega
      · omega
      · omega
      · omega
      · exact ih hrest s h

/-! ## Base64 alphabets and the URL-safe substitutions

`encodeOrigin` (src/server.js): standard base64, then `+`→`-`, `/`→`_`,
strip trailing `=`.  `decodeOrigin`: `-`→`+`, `_`→`/`, re-pad with `=`,
base64-decode, decode UTF-8. -/

def b64StdChar (n : Nat) : Char :=
  if n < 26 then Char.ofNat (65 + n)
  else if n < 52 then Char.ofNat (97 + (n - 26))
  else if n < 62 then Char.ofNat (48 + (n - 52))
  else if n = 62 then '+' else '/'

def b64StdVal (c : Char) : Option Nat :=
  if 'A' ≤ c ∧ c ≤ 'Z' then some (c.toNat - 65)
  else if 'a' ≤ c ∧ c ≤ 'z' then some (c.toNat - 97 + 26)
  else if '0' ≤ c ∧ c ≤ '9' then some (c.toNat - 48 + 52)
  else if c = '+' then some 62
  else if c = '/' then some 63
  else none

/-- The two regex substitutions of `encodeOrigin`: `+`→`-` and `/`→`_`. -/
def urlSafeSwap (c : Char) : Char :=
  if c = '+' then '-' else if c = '/' then '_' else c

/-- The two regex substitutions of `decodeOrigin`: `-`→`+` and `_`→`/`. -/
def urlUnswap (c : Char) : Char :=
  if c = '-' then '+' else if c = '_' then '/' else c

/-- URL-safe alphabet character for a sextet (standard char after swapping). -/
def b64UrlChar (n : Nat) : Char := urlSafeSwap (b64StdChar n)

theorem b64StdVal_b64StdChar : ∀ n : Fin 64, b64StdVal (b64StdChar n.val) = some n.val := by
  decide

theorem urlUnswap_b64UrlChar : ∀ n : Fin 64, urlUnswap (b64UrlChar n.val) = b64StdChar n.val := by
  decide

theorem b64StdChar_ne_eq : ∀ n : Fin 64, b64StdChar n.val ≠ '=' := by decide

theorem b64UrlChar_ne_eq : ∀ n : Fin 64, b64UrlChar n.val ≠ '=' := by decide

/-- `.replace(/=+$/,'')` on the encode side / the strip before decoding:
remove every trailing `=`. -/
def stripTrailingEq (l : List Char) : List Char :=
  (l.reverse.dropWhile (· = '=')).reverse

/-- `'='.repeat(4-(b64.length%4))` guarded by `length%4===0` in the source. -/
def b64PadLen (n : Nat) : Nat := (4 - n % 4) % 4

/-- Padded standard base64 of a byte list (`Buffer.toString('base64')`). -/
def toBase64 (bytes : List Nat) : List Char :=
  let cs := (sextetsOfBytes bytes).map b64StdChar
  cs ++ List.replicate (b64PadLen cs.length) '='

/-- Node's lenient base64 decoder (`Buffer.from(.,'base64')`): every
character outside the standard alphabet — including `=` and whitespace —
is silently skipped, and the surviving sextets are packed into bytes
(a trailing lone sextet contributes no byte).  The decode never fails. -/
def b64DecodeLenient (cs : List Char) : List Nat :=
  bytesOfSextets (cs.filterMap b64StdVal)

theorem filterMap_b64StdVal_map (sx : List Nat) (h : ∀ s ∈ sx, s < 64) :
    (sx.map b64StdChar).filterMap b64StdVal = sx := by
  induction sx with
  | nil => rfl
  | cons v vs ih =>
      have hv : v < 64 := h v (by simp)
      have hvs : ∀ s ∈ vs, s < 64 := fun s hs => h s (by simp [hs])
      have hval := b64StdVal_b64StdChar ⟨v, hv⟩
      simp only [List.map_cons, List.filterMap_cons, hval, ih hvs]

theorem filterMap_b64StdVal_replicate_eq (k : Nat) :
    (List.replicate k '=').filterMap b64StdVal = [] := by
  induction k with
  | zero => rfl
  | succ n ih =>
      rw [List.replicate_succ, List.filterMap_cons]
      have hval : b64StdVal '=' = none := rfl
      rw [hval, ih]

theorem dropWhile_replicate_append (p : Char → Bool) (k : Nat) (a : Char) (t : List Char)
    (ha : p a = true) : (List.replicate k a ++ t).dropWhile p = t.dropWhile p := by
  induction k with
  | zero => simp
  | succ n ih => simp [List.replicate_succ, List.dropWhile, ha, ih]

theorem dropWhile_of_forall_neg (p : Char → Bool) (t : List Char)
    (h : ∀ x ∈ t, p x = false) : t.dropWhile p = t := by
  cases t with
  | nil => rfl
  | cons c cs => simp [List.dropWhile, h c (by simp)]

theorem stripTrailingEq_append_pad (xs : List Char) (k : Nat)
    (hxs : ∀ x ∈ xs, x ≠ '=') : stripTrailingEq (xs ++ List.replicate k '=') = xs := by
  unfold stripTrailingEq
  rw [List.reverse_append, List.reverse_replicate]
  rw [dropWhile_replicate_append _ k '=' xs.reverse (by simp)]
  rw [dropWhile_of_forall_neg]
  · exact List.reverse_reverse xs
  · intro x hx
    simp only [List.mem_reverse] at hx
    simpa using hxs x hx

/-! ## UTF-8 (`Buffer.from(s,'utf8')` and `buf.toString('utf8')`)

The encoder is the standard 1–4 byte scheme.  The decoder is total: like
Node, invalid sequences produce U+FFFD instead of failing.  The claims
only exercise the ASCII fragment (canonical origins are ASCII). -/

def utf8EncodeChar (c : Char) : List Nat :=
  let n := c.toNat
  if n < 128 then [n]
  else if n < 2048 then [192 + n / 64, 128 + n % 64]
  else if n < 65536 then [224 + n / 4096, 128 + n / 64 % 64, 128 + n % 64]
  else [240 + n / 262144, 128 + n / 4096 % 64, 128 + n / 64 % 64, 128 + n % 64]

def utf8Encode (s : List Char) : List Nat := (s.map utf8EncodeChar).flatten

/-- Node's replacement character for undecodable UTF-8. -/
def replacementChar : Char := Char.ofNat 65533

def isUtf8Cont (b : Nat) : Bool := 128 ≤ b && b < 192

def utf8DecodeAux : Nat → List Nat → List Char
  | 0, _ => []
  | _ + 1, [] => []
  | fuel + 1, b :: rest =>
      if b < 128 then Char.ofNat b :: utf8DecodeAux fuel rest
      else if b < 224 then
        match rest with
        | b2 :: rest2 =>
            if isUtf8Cont b2 then
              Char.ofNat ((b - 192) * 64 + (b2 - 128)) :: utf8DecodeAux fuel rest2
            else replacementChar :: utf8DecodeAux fuel rest
        | [] => [replacementChar]
      else if b < 240 then
        match rest with
        | b2 :: b3 :: rest3 =>
            if isUtf8Cont b2 && isUtf8Cont b3 then
              Char.ofNat ((b - 224) * 4096 + (b2 - 128) * 64 + (b3 - 128))
                :: utf8DecodeAux fuel rest3
            else replacementChar :: utf8DecodeAux fuel rest
        | _ => [replacementChar]
      else
        match rest with
        | b2 :: b3 :: b4 :: rest4 =>
            if isUtf8Cont b2 && isUtf8Cont b3 && isUtf8Cont b4 then
              Char.ofNat ((b - 240) * 262144 + (b2 - 128) * 4096 + (b3 - 128) * 64 + (b4 - 128))
                :: utf8DecodeAux fuel rest4
            else replacementChar :: utf8DecodeAux fuel rest
        | _ => [replacementChar]

/-- Total UTF-8 decoder; each step consumes at least one byte, so the byte
count is enough fuel. -/
def utf8Decode (l : List Nat) : List Char := utf8DecodeAux l.length l

/-- On ASCII text the encoder is just the code points. -/
theorem utf8Encode_ascii (s : List Char) (h : ∀ c ∈ s, c.toNat < 128) :
    utf8Encode s = s.map Char.toNat := by
  induction s with
  | nil => rfl
  | cons c cs ih =>
      have hc : c.toNat < 128 := h c (by simp)
      have hcs : ∀ x ∈ cs, x.toNat < 128 := fun x hx => h x (by simp [hx])
      simp only [utf8Encode, List.map_cons, List.flatten_cons] at *
      rw [ih hcs]
      simp [utf8EncodeChar, hc]

theorem utf8DecodeAux_map_toNat (s : List Char) (h : ∀ c ∈ s, c.toNat < 128) :
    utf8DecodeAux (s.map Char.toNat).length (s.map Char.toNat) = s := by
  induction s with
  | nil => rfl
  | cons c cs ih =>
      have hc : c.toNat < 128 := h c (by simp)
      have hcs : ∀ x ∈ cs, x.toNat < 128 := fun x hx => h x (by simp [hx])
      simp only [List.map_cons, List.length_cons, utf8DecodeAux, if_pos hc]
      rw [ih hcs, Char.ofNat_toNat]

theorem utf8Decode_map_toNat (s : List Char) (h : ∀ c ∈ s, c.toNat < 128) :
    utf8Decode (s.map Char.toNat) = s := utf8DecodeAux_map_toNat s h

/-! ## The origin codec (src/server.js lines 38–39)

`encodeOrigin(origin)` is `Buffer.from(origin,'utf8').toString('base64')`
with `+` replaced by `-`, `/` replaced by `_`, and trailing `=` stripped.
`decodeOrigin(id)` maps `-` back to `+` and `_` back to `/`, re-pads with
`=` to a multiple of four, base64-decodes with Node's lenient decoder (the
`=` padding is skipped again like any other non-alphabet character), and
decodes the bytes as UTF-8.  The source wraps this in try/catch returning
`null`, but neither `Buffer.from(.,'base64')` nor `toString('utf8')`
throws, so the `none` case is unreachable: the `/go/:oid` route's
`if(!origin)` guard in practice only rejects a falsy empty-string
decode. -/

def encodeOrigin (origin : List Char) : List Char :=
  stripTrailingEq ((toBase64 (utf8Encode origin)).map urlSafeSwap)

def decodeOrigin (id : List Char) : Option (List Char) :=
  let b64 := id.map urlUnswap
  let padded := b64 ++ List.replicate (b64PadLen b64.length) '='
  some (utf8Decode (b64DecodeLenient padded))

theorem map_swap_toBase64 (bytes : List Nat) (hb : ∀ b ∈ bytes, b < 256) :
    stripTrailingEq ((toBase64 bytes).map urlSafeSwap)
      = (sextetsOfBytes bytes).map b64UrlChar := by
  have hsx := sextetsOfBytes_lt bytes hb
  unfold toBase64
  rw [List.map_append, List.map_map, List.map_replicate]
  have hswapeq : urlSafeSwap '=' = '=' := rfl
  rw [hswapeq]
  have hcomp : (sextetsOfBytes bytes).map (urlSafeSwap ∘ b64StdChar)
      = (sextetsOfBytes bytes).map b64UrlChar := rfl
  rw [hcomp]
  apply stripTrailingEq_append_pad
  intro x hx
  rcases List.mem_map.mp hx with ⟨s, hs, rfl⟩
  exact b64UrlChar_ne_eq ⟨s, hsx s hs⟩

theorem encodeOrigin_eq_map (origin : List Char) (h : ∀ c ∈ origin, c.toNat < 128) :
    encodeOrigin origin = (sextetsOfBytes (utf8Encode origin)).map b64UrlChar := by
  apply map_swap_toBase64
  rw [utf8Encode_ascii origin h]
  intro b hb
  rcases List.mem_map.mp hb with ⟨c, hc, rfl⟩
  exact Nat.lt_of_lt_of_le (h c hc) (by norm_num)

theorem decodeOrigin_map_b64UrlChar (bytes : List Nat) (hb : ∀ b ∈ bytes, b < 256) :
    decodeOrigin ((sextetsOfBytes bytes).map b64UrlChar) = some (utf8Decode bytes) := by
  have hsx := sextetsOfBytes_lt bytes hb
  unfold decodeOrigin b64DecodeLenient
  have hunswap : ((sextetsOfBytes bytes).map b64UrlChar).map urlUnswap
      = (sextetsOfBytes bytes).map b64StdChar := by
    rw [List.map_map]
    apply List.map_congr_left
    intro s hs
    exact urlUnswap_b64UrlChar ⟨s, hsx s hs⟩
  simp only [hunswap, List.filterMap_append, filterMap_b64StdVal_map _ hsx,
    filterMap_b64StdVal_replicate_eq, List.append_nil,
    bytesOfSextets_sextetsOfBytes bytes hb]

/-- The codec round-trips on any ASCII string; well-formed origins are a
special case. -/
theorem decodeOrigin_encodeOrigin_ascii (origin : List Char)
    (h : ∀ c ∈ origin, c.toNat < 128) :
    decodeOrigin (encodeOrigin origin) = some origin := by
  have hb : ∀ b ∈ utf8Encode origin, b < 256 := by
    rw [utf8Encode_ascii origin h]
    intro b hb
    rcases List.mem_map.mp hb with ⟨c, hc, rfl⟩
    exact Nat.lt_of_lt_of_le (h c hc) (by norm_num)
  rw [encodeOrigin_eq_map origin h, decodeOrigin_map_b64UrlChar _ hb]
  rw [utf8Encode_ascii origin h, utf8Decode_map_toNat origin h]

/-! ## URL model

The handlers call WHATWG `new URL(...)` and use `origin`, `host`,
`protocol`, `pathname`, `search`, `hash`.  The model below covers the
fragment the proxy operates on: absolute `http`/`https` URLs with an
ASCII host (the canonical form `new URL` itself produces for the origins
the codec handles), explicit decimal port, path, query and fragment.
Canonicalisations performed by `new URL` that matter to the claims are
reproduced: empty path becomes `/` and a default port (80/443) is
dropped from `origin`/`host`. -/

structure UrlParts where
  scheme : List Char
  host : List Char
  port : Option Nat
  pathname : List Char
  search : List Char
  hash : List Char
deriving DecidableEq, Repr

def litHttp : List Char := ['h', 't', 't', 'p']

def litHttps : List Char := ['h', 't', 't', 'p', 's']

def litHttpSep : List Char := ['h', 't', 't', 'p', ':', '/', '/']

def litHttpsSep : List Char := ['h', 't', 't', 'p', 's', ':', '/', '/']

def defaultPort (scheme : List Char) : Nat := if scheme = litHttps then 443 else 80

def isHostChar (c : Char) : Bool :=
  decide (c.toNat < 128) && c != '/' && c != ':' && c != '?' && c != '#'

def isDigitChar (c : Char) : Bool := '0' ≤ c && c ≤ '9'

def digitChar (d : Nat) : Char := Char.ofNat (48 + d)

def charsToNat (l : List Char) : Nat := l.foldl (fun a c => 10 * a + (c.toNat - 48)) 0

def natToCharsAux : Nat → Nat → List Char → List Char
  | 0, _, acc => acc
  | _ + 1, 0, acc => acc
  | fuel + 1, n, acc => natToCharsAux fuel (n / 10) (digitChar (n % 10) :: acc)

def natToChars (n : Nat) : List Char := if n = 0 then ['0'] else natToCharsAux n n []

def stripPrefixChars : List Char → List Char → Option (List Char)
  | [], l => some l
  | _ :: _, [] => none
  | p :: ps, c :: cs => if c = p then stripPrefixChars ps cs else none

def isPathChar (c : Char) : Bool := c != '?' && c != '#'

def isSearchChar (c : Char) : Bool := c != '#'

/-- Path / query / fragment split of everything after the authority. -/
def mkUrlParts (scheme host : List Char) (port : Option Nat) (r : List Char) :
    Option UrlParts :=
  match r with
  | [] => some ⟨scheme, host, port, ['/'], [], []⟩
  | c :: _ =>
      if c = '/' ∨ c = '?' ∨ c = '#' then
        let path := r.takeWhile isPathChar
        let r1 := r.dropWhile isPathChar
        some ⟨scheme, host, port, if path = [] then ['/'] else path,
          r1.takeWhile isSearchChar, r1.dropWhile isSearchChar⟩
      else none

def parseAfterScheme (scheme : List Char) (rest : List Char) : Option UrlParts :=
  let host := rest.takeWhile isHostChar
  let r1 := rest.dropWhile isHostChar
  if host = [] then none
  else if r1.head? = some ':' then
    let r2 := r1.tail
    let ds := r2.takeWhile isDigitChar
    let r3 := r2.dropWhile isDigitChar
    if ds = [] then none
    else
      let p := charsToNat ds
      if p ≤ 65535 then
        mkUrlParts scheme host (if p = defaultPort scheme then none else some p) r3
      else none
  else mkUrlParts scheme host none r1

def parseURL (s : List Char) : Option UrlParts :=
  match stripPrefixChars litHttpsSep s with
  | some rest => parseAfterScheme litHttps rest
  | none =>
      match stripPrefixChars litHttpSep s with
      | some rest => parseAfterScheme litHttp rest
      | none => none

def portPart : Option Nat → List Char
  | none => []
  | some p => ':' :: natToChars p

/-- `url.origin` of the model. -/
def originString (u : UrlParts) : List Char :=
  u.scheme ++ ':' :: '/' :: '/' :: (u.host ++ portPart u.port)

theorem stripPrefixChars_some_eq (p : List Char) :
    ∀ l r, stripPrefixChars p l = some r → l = p ++ r := by
  induction p with
  | nil =>
      intro l r h
      cases h
      rfl
  | cons c cs ih =>
      intro l r h
      cases l with
      | nil => cases h
      | cons d ds =>
          simp only [stripPrefixChars] at h
          by_cases hd : d = c
          · rw [if_pos hd] at h
            rw [hd, ih ds r h]
            rfl
          · rw [if_neg hd] at h
            cases h

/-- A target string containing no `:` cannot carry a scheme, so `new URL`
necessarily throws on it — and the model's parser fails on it too.  (On
this class the model's failure coincides exactly with the program's.) -/
theorem parseURL_none_of_no_colon (t : List Char) (h : ':' ∉ t) : parseURL t = none := by
  unfold parseURL
  cases h1 : stripPrefixChars litHttpsSep t with
  | some r =>
      exfalso
      apply h
      rw [stripPrefixChars_some_eq litHttpsSep t r h1]
      exact List.mem_append.mpr (Or.inl (by decide))
  | none =>
      cases h2 : stripPrefixChars litHttpSep t with
      | some r =>
          exfalso
          apply h
          rw [stripPrefixChars_some_eq litHttpSep t r h2]
          exact List.mem_append.mpr (Or.inl (by decide))
      | none => rfl

theorem digitChar_ascii : ∀ d : Fin 10, (digitChar d.val).toNat < 128 := by decide

theorem natToCharsAux_eq_digits (fuel : Nat) :
    ∀ n acc, n ≤ fuel →
      natToCharsAux fuel n acc = ((Nat.digits 10 n).map digitChar).reverse ++ acc := by
  induction fuel with
  | zero =>
      intro n acc hn
      interval_cases n
      simp [natToCharsAux]
  | succ fuel ih =>
      intro n acc hn
      cases n with
      | zero => simp [natToCharsAux]
      | succ k =>
          rw [show natToCharsAux (fuel + 1) (k + 1) acc
              = natToCharsAux fuel ((k + 1) / 10) (digitChar ((k + 1) % 10) :: acc) from rfl]
          rw [ih ((k + 1) / 10) _ (by omega)]
          rw [Nat.digits_def' (by norm_num : (1:Nat) < 10) (Nat.succ_pos k)]
          simp [List.append_assoc]

theorem natToChars_eq_digits (n : Nat) (hn : n ≠ 0) :
    natToChars n = ((Nat.digits 10 n).map digitChar).reverse := by
  unfold natToChars
  rw [if_neg hn, natToCharsAux_eq_digits n n [] (le_refl n), List.append_nil]

theorem natToChars_ascii (n : Nat) : ∀ c ∈ natToChars n, c.toNat < 128 := by
  by_cases hn : n = 0
  · intro c hc
    rw [hn, show natToChars 0 = ['0'] from rfl] at hc
    simp only [List.mem_singleton] at hc
    subst hc
    decide
  · rw [natToChars_eq_digits n hn]
    intro c hc
    simp only [List.mem_reverse, List.mem_map] at hc
    rcases hc with ⟨d, hd, rfl⟩
    exact digitChar_ascii ⟨d, Nat.digits_lt_base (by norm_num) hd⟩

structure IsCanonical (u : UrlParts) : Prop where
  scheme_ok : u.scheme = litHttp ∨ u.scheme = litHttps
  host_ne : u.host ≠ []
  host_ok : ∀ c ∈ u.host, isHostChar c = true
  port_ok : ∀ p, u.port = some p → p ≤ 65535 ∧ p ≠ defaultPort u.scheme
  path_head : ∃ t, u.pathname = '/' :: t
  path_ok : ∀ c ∈ u.pathname, c ≠ '?' ∧ c ≠ '#'
  search_head : u.search = [] ∨ ∃ t, u.search = '?' :: t
  search_ok : ∀ c ∈ u.search, c ≠ '#'
  hash_head : u.hash = [] ∨ ∃ t, u.hash = '#' :: t

theorem dropWhile_head_false (p : Char → Bool) (l : List Char) (y : Char) (t : List Char)
    (h : l.dropWhile p = y :: t) : p y = false := by
  induction l with
  | nil => simp at h
  | cons c cs ih =>
      rw [List.dropWhile_cons] at h
      by_cases hc : p c
      · rw [if_pos hc] at h
        exact ih h
      · rw [if_neg hc] at h
        cases h
        simpa using hc

theorem path_field_head (c : Char) (rest : List Char) (hc : c = '/' ∨ c = '?' ∨ c = '#') :
    ∃ t, (if (c :: rest).takeWhile isPathChar = [] then ['/']
          else (c :: rest).takeWhile isPathChar) = '/' :: t := by
  rw [List.takeWhile_cons]
  by_cases hpc : isPathChar c
  · have hcs : c = '/' := by
      rcases hc with h1 | h1 | h1
      · exact h1
      · rw [h1] at hpc; exact absurd hpc (by decide)
      · rw [h1] at hpc; exact absurd hpc (by decide)
    subst hcs
    rw [if_pos hpc, if_neg (List.cons_ne_nil _ _)]
    exact ⟨_, rfl⟩
  · rw [if_neg hpc, if_pos rfl]
    exact ⟨[], rfl⟩

theorem path_field_ok (c : Char) (rest : List Char) :
    ∀ x ∈ (if (c :: rest).takeWhile isPathChar = [] then ['/']
           else (c :: rest).takeWhile isPathChar), x ≠ '?' ∧ x ≠ '#' := by
  intro x hx
  by_cases hp : (c :: rest).takeWhile isPathChar = []
  · rw [if_pos hp] at hx
    simp only [List.mem_singleton] at hx
    subst hx
    exact ⟨by decide, by decide⟩
  · rw [if_neg hp] at hx
    have := List.mem_takeWhile_imp hx
    unfold isPathChar at this
    simp only [Bool.and_eq_true, bne_iff_ne] at this
    exact this

theorem search_field_head (l : List Char) :
    (l.dropWhile isPathChar).takeWhile isSearchChar = [] ∨
      ∃ t, (l.dropWhile isPathChar).takeWhile isSearchChar = '?' :: t := by
  cases hdrop : l.dropWhile isPathChar with
  | nil => exact Or.inl rfl
  | cons y t =>
      have hy := dropWhile_head_false isPathChar l y t hdrop
      have hy2 : y = '?' ∨ y = '#' := by
        unfold isPathChar at hy
        simp only [Bool.and_eq_false_iff, bne_eq_false_iff_eq] at hy
        exact hy
      rcases hy2 with rfl | rfl
      · rw [List.takeWhile_cons, if_pos (by decide)]
        exact Or.inr ⟨_, rfl⟩
      · rw [List.takeWhile_cons, if_neg (by decide)]
        exact Or.inl rfl

theorem search_field_ok (l : List Char) : ∀ x ∈ l.takeWhile isSearchChar, x ≠ '#' := by
  intro x hx
  have := List.mem_takeWhile_imp hx
  unfold isSearchChar at this
  simpa [bne_iff_ne] using this

theorem hash_field_head (l : List Char) :
    l.dropWhile isSearchChar = [] ∨ ∃ t, l.dropWhile isSearchChar = '#' :: t := by
  cases hdrop : l.dropWhile isSearchChar with
  | nil => exact Or.inl rfl
  | cons y t =>
      have hy := dropWhile_head_false isSearchChar l y t hdrop
      have : y = '#' := by
        unfold isSearchChar at hy
        simpa [bne_eq_false_iff_eq] using hy
      subst this
      exact Or.inr ⟨t, rfl⟩

theorem mkUrlParts_canonical (scheme host : List Char) (port : Option Nat)
    (r : List Char) (u : UrlParts)
    (hs : scheme = litHttp ∨ scheme = litHttps) (hh : host ≠ [])
    (hhc : ∀ c ∈ host, isHostChar c = true)
    (hp : ∀ p, port = some p → p ≤ 65535 ∧ p ≠ defaultPort scheme)
    (h : mkUrlParts scheme host port r = some u) : IsCanonical u := by
  cases r with
  | nil =>
      simp only [mkUrlParts] at h
      cases h
      exact ⟨hs, hh, hhc, hp, ⟨[], rfl⟩, by simp, Or.inl rfl, by simp, Or.inl rfl⟩
  | cons c rest =>
      simp only [mkUrlParts] at h
      by_cases hc : c = '/' ∨ c = '?' ∨ c = '#'
      · rw [if_pos hc] at h
        cases h
        exact ⟨hs, hh, hhc, hp, path_field_head c rest hc, path_field_ok c rest,
          search_field_head (c :: rest), search_field_ok _, hash_field_head _⟩
      · rw [if_neg hc] at h
        cases h

theorem parseAfterScheme_canonical (scheme rest : List Char) (u : UrlParts)
    (hs : scheme = litHttp ∨ scheme = litHttps)
    (h : parseAfterScheme scheme rest = some u) : IsCanonical u := by
  simp only [parseAfterScheme] at h
  by_cases hhost : rest.takeWhile isHostChar = []
  · rw [if_pos hhost] at h
    cases h
  · rw [if_neg hhost] at h
    have hhc : ∀ c ∈ rest.takeWhile isHostChar, isHostChar c = true :=
      fun c hc => List.mem_takeWhile_imp hc
    by_cases hcolon : (rest.dropWhile isHostChar).head? = some ':'
    · rw [if_pos hcolon] at h
      by_cases hds : (rest.dropWhile isHostChar).tail.takeWhile isDigitChar = []
      · rw [if_pos hds] at h
        cases h
      · rw [if_neg hds] at h
        by_cases hle : charsToNat ((rest.dropWhile isHostChar).tail.takeWhile isDigitChar) ≤ 65535
        · rw [if_pos hle] at h
          refine mkUrlParts_canonical scheme _ _ _ u hs hhost hhc ?_ h
          intro p hp
          by_cases hdef : charsToNat ((rest.dropWhile isHostChar).tail.takeWhile isDigitChar)
              = defaultPort scheme
          · rw [if_pos hdef] at hp
            cases hp
          · rw [if_neg hdef] at hp
            cases hp
            exact ⟨hle, hdef⟩
        · rw [if_neg hle] at h
          cases h
    · rw [if_neg hcolon] at h
      refine mkUrlParts_canonical scheme _ _ _ u hs hhost hhc ?_ h
      intro p hp
      cases hp

theorem parseURL_canonical (s : List Char) (u : UrlParts) (h : parseURL s = some u) :
    IsCanonical u := by
  unfold parseURL at h
  cases hstrip : stripPrefixChars litHttpsSep s with
  | some rest =>
      rw [hstrip] at h
      exact parseAfterScheme_canonical litHttps rest u (Or.inr rfl) h
  | none =>
      rw [hstrip] at h
      cases hstrip2 : stripPrefixChars litHttpSep s with
      | some rest =>
          rw [hstrip2] at h
          exact parseAfterScheme_canonical litHttp rest u (Or.inl rfl) h
      | none =>
          rw [hstrip2] at h
          cases h

theorem isHostChar_ascii (c : Char) (h : isHostChar c = true) : c.toNat < 128 := by
  unfold isHostChar at h
  simp only [Bool.and_eq_true, decide_eq_true_eq] at h
  exact h.1.1.1.1

theorem originString_ascii (u : UrlParts) (hu : IsCanonical u) :
    ∀ c ∈ originString u, c.toNat < 128 := by
  intro c hc
  unfold originString at hc
  simp only [List.mem_append, List.mem_cons] at hc
  rcases hc with hsch | rfl | rfl | rfl | hhost | hport
  · rcases hu.scheme_ok with h | h <;> rw [h] at hsch
    · have hh : ∀ x ∈ litHttp, x.toNat < 128 := by decide
      exact hh c hsch
    · have hh : ∀ x ∈ litHttps, x.toNat < 128 := by decide
      exact hh c hsch
  · decide
  · decide
  · decide
  · exact isHostChar_ascii c (hu.host_ok c hhost)
  · cases hp : u.port with
    | none => rw [hp] at hport; cases hport
    | some p =>
        rw [hp] at hport
        simp only [portPart, List.mem_cons] at hport
        rcases hport with rfl | hport
        · decide
        · exact natToChars_ascii p c hport

/-- A well-formed origin string: it parses as an absolute URL whose origin
component is the whole string (spec §3: canonical `scheme://host[:port]`). -/
def isWellFormedOrigin (o : List Char) : Bool :=
  match parseURL o with
  | some u => originString u == o
  | none => false

/-- C2: for every well-formed origin string `o`, `decodeOrigin (encodeOrigin o)`
recovers `o` exactly: the URL-safe padding-free base64 origin encoding
round-trips. -/
theorem claim_C2_origin_codec_roundtrip (o : List Char)
    (h : isWellFormedOrigin o = true) :
    decodeOrigin (encodeOrigin o) = some o := by
  unfold isWellFormedOrigin at h
  cases hp : parseURL o with
  | none => rw [hp] at h; cases h
  | some u =>
      rw [hp] at h
      have ho : originString u = o := eq_of_beq h
      have hcanon := parseURL_canonical o u hp
      have hascii : ∀ c ∈ o, c.toNat < 128 := by
        rw [← ho]
        exact originString_ascii u hcanon
      exact decodeOrigin_encodeOrigin_ascii o hascii

/-- Witness for C2 at the concrete origin `https://example.com`. -/
theorem claim_C2_origin_codec_roundtrip_witness :
    decodeOrigin (encodeOrigin ("https://example.com".toList))
      = some ("https://example.com".toList) :=
  claim_C2_origin_codec_roundtrip ("https://example.com".toList) (by decide)

/-! ## Set-Cookie sanitizer (src/server.js onProxyRes, lines 140–145)

The source maps every upstream `set-cookie` value through three
JavaScript regex replacements, in this order:
* `.replace(/;\s*Domain=[^;]+/i, '')` — first match only;
* `.replace(/;\s*Secure/gi, '')` — global;
* `.replace(/;\s*SameSite=[^;]+/i, '; SameSite=Lax')` — first match only.

The model implements exactly these matchers: a match starts at a `;`,
skips JavaScript whitespace, then the literal (case-insensitive), then for
the `=`-valued ones one or more non-`;` characters (greedy, as the regex
backtracking never helps here because the literals contain no whitespace
and no `;`). -/

def isJsSpace (c : Char) : Bool :=
  c = ' ' || c = Char.ofNat 9 || c = Char.ofNat 10 || c = Char.ofNat 11 ||
    c = Char.ofNat 12 || c = Char.ofNat 13

/-- Case-insensitive literal match (the literal is given lowercase);
returns the remainder after the literal. -/
def stripLitCI : List Char → List Char → Option (List Char)
  | [], l => some l
  | _ :: _, [] => none
  | pc :: ps, c :: cs => if c.toLower = pc then stripLitCI ps cs else none

/-- Match `;\s*<lit>=[^;]+` (case-insensitive, `lit` given lowercase and
ending in `=`) at the head of the list; returns the remainder. -/
def matchSemiAttrVal (lit : List Char) (l : List Char) : Option (List Char) :=
  match l with
  | [] => none
  | c :: rest =>
      if c = ';' then
        match stripLitCI lit (rest.dropWhile isJsSpace) with
        | some r2 =>
            if r2.takeWhile (fun c => c != ';') = [] then none
            else some (r2.dropWhile (fun c => c != ';'))
        | none => none
      else none

/-- First-match-only replacement of `;\s*<lit>=[^;]+`. -/
def replaceFirstSemiAttrVal (lit repl : List Char) : List Char → List Char
  | [] => []
  | c :: cs =>
      match matchSemiAttrVal lit (c :: cs) with
      | some rem => repl ++ rem
      | none => c :: replaceFirstSemiAttrVal lit repl cs

def litSecure : List Char := ['s', 'e', 'c', 'u', 'r', 'e']

def litDomainEq : List Char := ['d', 'o', 'm', 'a', 'i', 'n', '=']

def litSameSiteEq : List Char := ['s', 'a', 'm', 'e', 's', 'i', 't', 'e', '=']

def sameSiteLaxRepl : List Char := [';', ' ', 'S', 'a', 'm', 'e', 'S', 'i', 't', 'e', '=', 'L', 'a', 'x']

/-- Match `;\s*Secure` (case-insensitive) at the head of the list. -/
def matchSemiSecure (l : List Char) : Option (List Char) :=
  match l with
  | [] => none
  | c :: rest =>
      if c = ';' then stripLitCI litSecure (rest.dropWhile isJsSpace) else none

theorem stripLitCI_length (p : List Char) :
    ∀ l r, stripLitCI p l = some r → r.length ≤ l.length := by
  induction p with
  | nil =>
      intro l r h
      cases h
      exact le_refl _
  | cons pc ps ih =>
      intro l r h
      cases l with
      | nil => cases h
      | cons c cs =>
          simp only [stripLitCI] at h
          by_cases hc : c.toLower = pc
          · rw [if_pos hc] at h
            exact le_trans (ih cs r h) (Nat.le_succ _)
          · rw [if_neg hc] at h
            cases h

theorem dropWhile_length_le (p : Char → Bool) (l : List Char) :
    (l.dropWhile p).length ≤ l.length := by
  induction l with
  | nil => exact le_refl _
  | cons c cs ih =>
      rw [List.dropWhile_cons]
      by_cases hc : p c
      · rw [if_pos hc]
        exact le_trans ih (Nat.le_succ _)
      · rw [if_neg hc]

theorem matchSemiSecure_length (l : List Char) (r : List Char)
    (h : matchSemiSecure l = some r) : r.length < l.length := by
  cases l with
  | nil => cases h
  | cons c cs =>
      simp only [matchSemiSecure] at h
      by_cases hc : c = ';'
      · rw [if_pos hc] at h
        have h1 := stripLitCI_length _ _ _ h
        have h2 : (cs.dropWhile isJsSpace).length ≤ cs.length :=
          dropWhile_length_le isJsSpace cs
        simp only [List.length_cons]
        omega
      · rw [if_neg hc] at h
        cases h

def replaceAllSemiSecureAux : Nat → List Char → List Char
  | 0, l => l
  | _ + 1, [] => []
  | fuel + 1, c :: cs =>
      match matchSemiSecure (c :: cs) with
      | some rem => replaceAllSemiSecureAux fuel rem
      | none => c :: replaceAllSemiSecureAux fuel cs

/-- Global replacement of `;\s*Secure` by the empty string: after a match
the scan resumes at the remainder, as a JavaScript global regex does.
Every step consumes at least one character (`matchSemiSecure_length`), so
the input length is enough fuel. -/
def replaceAllSemiSecure (l : List Char) : List Char := replaceAllSemiSecureAux l.length l

theorem replaceAllSemiSecureAux_irrel (f1 : Nat) :
    ∀ (l : List Char) (f2 : Nat), l.length ≤ f1 → l.length ≤ f2 →
      replaceAllSemiSecureAux f1 l = replaceAllSemiSecureAux f2 l := by
  induction f1 with
  | zero =>
      intro l f2 h1 _
      have hl : l = [] := List.length_eq_zero.mp (Nat.le_zero.mp h1)
      subst hl
      cases f2 with
      | zero => rfl
      | succ _ => rfl
  | succ f ih =>
      intro l f2 h1 h2
      cases l with
      | nil =>
          cases f2 with
          | zero => rfl
          | succ _ => rfl
      | cons c cs =>
          cases f2 with
          | zero => simp at h2
          | succ f2' =>
              simp only [replaceAllSemiSecureAux]
              cases hm : matchSemiSecure (c :: cs) with
              | some rem =>
                  have hr := matchSemiSecure_length _ _ hm
                  simp only [List.length_cons] at h1 h2 hr
                  exact ih rem f2' (by omega) (by omega)
              | none =>
                  simp only [List.length_cons] at h1 h2
                  rw [ih cs f2' (by omega) (by omega)]

theorem replaceAllSemiSecure_cons_match (c : Char) (cs rem : List Char)
    (h : matchSemiSecure (c :: cs) = some rem) :
    replaceAllSemiSecure (c :: cs) = replaceAllSemiSecure rem := by
  have hr := matchSemiSecure_length _ _ h
  simp only [List.length_cons] at hr
  unfold replaceAllSemiSecure
  simp only [List.length_cons, replaceAllSemiSecureAux]
  rw [h]
  exact replaceAllSemiSecureAux_irrel cs.length rem rem.length (by omega) (le_refl _)

theorem replaceAllSemiSecure_cons_nomatch (c : Char) (cs : List Char)
    (h : matchSemiSecure (c :: cs) = none) :
    replaceAllSemiSecure (c :: cs) = c :: replaceAllSemiSecure cs := by
  unfold replaceAllSemiSecure
  simp only [List.length_cons, replaceAllSemiSecureAux]
  rw [h]

/-- If no position of the cookie matches `;\s*Secure`, the global
replacement leaves it unchanged. -/
theorem replaceAllSemiSecure_no_match (l : List Char)
    (h : ∀ j < l.length, matchSemiSecure (l.drop j) = none) :
    replaceAllSemiSecure l = l := by
  induction l with
  | nil => rfl
  | cons c cs ih =>
      have h0 : matchSemiSecure (c :: cs) = none := by simpa using h 0 (by simp)
      rw [replaceAllSemiSecure_cons_nomatch c cs h0]
      rw [ih (fun j hj => by simpa using h (j + 1) (by simpa using hj))]

/-- The global `;\s*Secure` replacement removes the leftmost match and
continues after it, exactly as a JavaScript `g`-flagged regex does: if the
first match starts at position `i` (no earlier position matches) and
leaves `rem`, the result keeps the first `i` characters and recurses on
`rem`. -/
theorem replaceAllSemiSecure_first_match (i : Nat) :
    ∀ (l rem : List Char), (∀ j < i, matchSemiSecure (l.drop j) = none) →
      matchSemiSecure (l.drop i) = some rem →
      replaceAllSemiSecure l = l.take i ++ replaceAllSemiSecure rem := by
  induction i with
  | zero =>
      intro l rem _ hm
      rw [List.drop_zero] at hm
      cases l with
      | nil => cases hm
      | cons c cs =>
          rw [replaceAllSemiSecure_cons_match c cs rem hm]
          rfl
  | succ k ih =>
      intro l rem hb hm
      cases l with
      | nil => cases hm
      | cons c cs =>
          have h0 : matchSemiSecure (c :: cs) = none := by
            simpa using hb 0 (Nat.succ_pos k)
          rw [replaceAllSemiSecure_cons_nomatch c cs h0, List.take_succ_cons,
            List.cons_append, ih cs rem (fun j hj => by
              simpa using hb (j + 1) (by omega)) (by simpa using hm)]

/-- If no position matches `;\s*<lit>=value`, the first-match replacement
leaves the cookie unchanged — in particular no `SameSite` attribute is
ever added to a cookie that has none. -/
theorem replaceFirstSemiAttrVal_no_match (lit repl : List Char) (l : List Char)
    (h : ∀ j < l.length, matchSemiAttrVal lit (l.drop j) = none) :
    replaceFirstSemiAttrVal lit repl l = l := by
  induction l with
  | nil => rfl
  | cons c cs ih =>
      have h0 : matchSemiAttrVal lit (c :: cs) = none := by simpa using h 0 (by simp)
      simp only [replaceFirstSemiAttrVal]
      rw [h0]
      rw [ih (fun j hj => by simpa using h (j + 1) (by simpa using hj))]

/-- The first-match replacement substitutes `repl` for the leftmost
`;\s*<lit>=value` span: if the first match starts at position `i` and
leaves `rem`, the result is the first `i` characters, then `repl`, then
`rem`. -/
theorem replaceFirstSemiAttrVal_first_match (lit repl : List Char) (i : Nat) :
    ∀ (l rem : List Char), (∀ j < i, matchSemiAttrVal lit (l.drop j) = none) →
      matchSemiAttrVal lit (l.drop i) = some rem →
      replaceFirstSemiAttrVal lit repl l = l.take i ++ repl ++ rem := by
  induction i with
  | zero =>
      intro l rem _ hm
      rw [List.drop_zero] at hm
      cases l with
      | nil => cases hm
      | cons c cs =>
          simp only [replaceFirstSemiAttrVal]
          rw [hm]
          rfl
  | succ k ih =>
      intro l rem hb hm
      cases l with
      | nil => cases hm
      | cons c cs =>
          have h0 : matchSemiAttrVal lit (c :: cs) = none := by
            simpa using hb 0 (Nat.succ_pos k)
          simp only [replaceFirstSemiAttrVal]
          rw [h0, List.take_succ_cons, List.cons_append, List.cons_append,
            ih cs rem (fun j hj => by simpa using hb (j + 1) (by omega)) (by simpa using hm)]

/-- The cookie sanitizer: drop the first `Domain=...` attribute, drop every
`Secure` flag, rewrite the first `SameSite=...` attribute to
`; SameSite=Lax` (the replacement only fires when a SameSite attribute is
present). -/
def sanitizeSetCookie (c : List Char) : List Char :=
  replaceFirstSemiAttrVal litSameSiteEq sameSiteLaxRepl
    (replaceAllSemiSecure
      (replaceFirstSemiAttrVal litDomainEq [] c))

/-- C4 counterexample: the claim (and spec §8 scenario) says the upstream
cookie `sid=1; Domain=example.com; Secure` reaches the client as
`sid=1; SameSite=Lax`; the sanitizer actually delivers `sid=1`, because the
SameSite regex replacement only rewrites an existing SameSite attribute and
never adds one. -/
theorem claim_C4_cookie_counterexample :
    sanitizeSetCookie ("sid=1; Domain=example.com; Secure".toList) = "sid=1".toList ∧
      sanitizeSetCookie ("sid=1; Domain=example.com; Secure".toList)
        ≠ "sid=1; SameSite=Lax".toList := by
  constructor
  · decide
  · decide

/-- C4 (amended): for every upstream Set-Cookie header the sanitizer
drops the first `Domain=...` attribute (the leftmost `;\s*Domain=value`
match is replaced by nothing, and a cookie with no such match is left
untouched), drops every `Secure` flag (each leftmost `;\s*Secure` match
is removed and scanning continues after it, as a `g`-flagged regex does,
and a cookie with no match is untouched), and rewrites the first existing
`;\s*SameSite=value` attribute to `; SameSite=Lax` — never adding a
SameSite attribute to a cookie that has none.  The sanitizer is the
composition of the three stages in source order, and the spec's scenario
input is delivered as `sid=1`. -/
theorem claim_C4_cookie_sanitizer_amended :
    (∀ (l : List Char) (i : Nat) (rem : List Char),
        (∀ j < i, matchSemiAttrVal litDomainEq (l.drop j) = none) →
        matchSemiAttrVal litDomainEq (l.drop i) = some rem →
        replaceFirstSemiAttrVal litDomainEq [] l = l.take i ++ rem) ∧
      (∀ l : List Char, (∀ j < l.length, matchSemiAttrVal litDomainEq (l.drop j) = none) →
        replaceFirstSemiAttrVal litDomainEq [] l = l) ∧
      (∀ (l : List Char) (i : Nat) (rem : List Char),
        (∀ j < i, matchSemiSecure (l.drop j) = none) →
        matchSemiSecure (l.drop i) = some rem →
        replaceAllSemiSecure l = l.take i ++ replaceAllSemiSecure rem) ∧
      (∀ l : List Char, (∀ j < l.length, matchSemiSecure (l.drop j) = none) →
        replaceAllSemiSecure l = l) ∧
      (∀ (l : List Char) (i : Nat) (rem : List Char),
        (∀ j < i, matchSemiAttrVal litSameSiteEq (l.drop j) = none) →
        matchSemiAttrVal litSameSiteEq (l.drop i) = some rem →
        replaceFirstSemiAttrVal litSameSiteEq sameSiteLaxRepl l
          = l.take i ++ sameSiteLaxRepl ++ rem) ∧
      (∀ l : List Char, (∀ j < l.length, matchSemiAttrVal litSameSiteEq (l.drop j) = none) →
        replaceFirstSemiAttrVal litSameSiteEq sameSiteLaxRepl l = l) ∧
      (∀ c : List Char, sanitizeSetCookie c
        = replaceFirstSemiAttrVal litSameSiteEq sameSiteLaxRepl
            (replaceAllSemiSecure (replaceFirstSemiAttrVal litDomainEq [] c))) ∧
      sanitizeSetCookie ("sid=1; Domain=example.com; Secure".toList) = "sid=1".toList := by
  refine ⟨?_, replaceFirstSemiAttrVal_no_match litDomainEq [],
    fun l i rem hb hm => replaceAllSemiSecure_first_match i l rem hb hm,
    replaceAllSemiSecure_no_match,
    fun l i rem hb hm => replaceFirstSemiAttrVal_first_match litSameSiteEq sameSiteLaxRepl
      i l rem hb hm,
    replaceFirstSemiAttrVal_no_match litSameSiteEq sameSiteLaxRepl,
    fun c => rfl, by decide⟩
  intro l i rem hb hm
  have h := replaceFirstSemiAttrVal_first_match litDomainEq [] i l rem hb hm
  rw [h, List.append_nil]

/-- Witness for the amended C4: the Domain clause fires on the scenario
cookie at position 5 (removing `; Domain=example.com`), and the
SameSite no-match clause leaves `sid=1` untouched. -/
theorem claim_C4_cookie_sanitizer_amended_witness :
    replaceFirstSemiAttrVal litDomainEq [] ("sid=1; Domain=example.com; Secure".toList)
        = "sid=1; Secure".toList ∧
      replaceFirstSemiAttrVal litSameSiteEq sameSiteLaxRepl ("sid=1".toList)
        = "sid=1".toList := by
  constructor
  · have h := claim_C4_cookie_sanitizer_amended.1
      ("sid=1; Domain=example.com; Secure".toList) 5 ("; Secure".toList)
      (by decide) (by decide)
    exact h.trans (by decide)
  · exact claim_C4_cookie_sanitizer_amended.2.2.2.2.2.1 ("sid=1".toList) (by decide)

/-! ## Location header rewriting (src/server.js onProxyRes, lines 147–155)

```
const abs = loc.startsWith('/') ? url.origin + loc : loc;
const u = new URL(abs);
pRes.headers['location'] = '/go/' + encodeOrigin(u.origin) + u.pathname + u.search;
```
with the whole step wrapped in try/catch: an unparsable `abs` leaves the
header unchanged. -/

def litGoSlash : List Char := ['/', 'g', 'o', '/']

structure AgentOptions where
  keepAlive : Bool
  keepAliveMsecs : Nat
  maxSockets : Nat
  maxFreeSockets : Nat
  timeout : Nat
  /-- `none` means the option is not set, so Node validates certificates. -/
  rejectUnauthorized : Option Bool
deriving DecidableEq, Repr

def httpAgent : AgentOptions :=
  { keepAlive := true, keepAliveMsecs := 30000, maxSockets := 10, maxFreeSockets := 5,
    timeout := 5000, rejectUnauthorized := none }

def httpsAgent : AgentOptions :=
  { keepAlive := true, keepAliveMsecs := 30000, maxSockets := 10, maxFreeSockets := 5,
    timeout := 5000, rejectUnauthorized := some false }

structure ProxyBaseOptions where
  target : List Char
  changeOrigin : Bool
  secure : Bool
  timeout : Nat
  proxyTimeout : Nat
  agent : AgentOptions
deriving DecidableEq, Repr

def baseOptions (url : UrlParts) (insecure : Bool) : ProxyBaseOptions :=
  { target := originString url
    changeOrigin := true
    secure := !insecure
    timeout := 3000
    proxyTimeout := 5000
    agent := if url.scheme = litHttps then httpsAgent else httpAgent }

/-- C3 counterexample: a request for an `https` target *without* the
insecure flag still runs over the shared TLS agent, which is constructed
with `rejectUnauthorized = false` — upstream certificate validation is
disabled at the agent for every HTTPS request, not only on explicit
opt-in. -/
theorem claim_C3_insecure_counterexample :
    (baseOptions ⟨litHttps, "example.com".toList, none, ['/'], [], []⟩ false).secure = true ∧
      (baseOptions ⟨litHttps, "example.com".toList, none, ['/'], [], []⟩
        false).agent.rejectUnauthorized = some false := by
  constructor
  · rfl
  · rfl

/-- C3 (amended): the per-request proxy option `secure` equals `!insecure`
(that layer never defaults to insecure), but the agent attached to every
HTTPS request is the shared `httpsAgent` constructed once with
`rejectUnauthorized = false`, while the plain-HTTP agent sets no such
option. -/
theorem claim_C3_insecure_amended (url : UrlParts) (insecure : Bool) :
    (baseOptions url insecure).secure = !insecure ∧
      (baseOptions url insecure).agent
        = (if url.scheme = litHttps then httpsAgent else httpAgent) ∧
      httpsAgent.rejectUnauthorized = some false ∧
      httpAgent.rejectUnauthorized = none :=
  ⟨rfl, rfl, rfl, rfl⟩

/-! ## Proxy response lifecycle and history recording (src/server.js 107–231)

In rewriting mode `onProxyRes` installs three stream callbacks sharing an
`ended` flag and one safety timer:
* `data` pushes chunks (HTML) or streams them through;
* `error` (first terminal event) answers 502 — and records nothing;
* `end` (first terminal event) records exactly one history entry, then
  serves the body;
* the safety timer (first terminal event) answers 504 — and records nothing.
`onError` (connection-level failure, no upstream response) records one
entry and answers 502.  Raw mode (line 107) returns a plain
`createProxyMiddleware(baseOptions)` with *no* `onProxyRes`/`onError`, so
no `recordHistory` call exists on that path. -/

inductive RespEvent where
  | dataChunk (bytes : List Nat)
  | errorEv
  | endEv
  | safetyFire
deriving DecidableEq, Repr

structure RespState where
  ended : Bool
  records : Nat
  chunks : List (List Nat)
deriving DecidableEq, Repr

def initRespState : RespState := ⟨false, 0, []⟩

def stepResp (isHtml : Bool) (s : RespState) (e : RespEvent) : RespState :=
  match e with
  | .dataChunk b => if isHtml then { s with chunks := s.chunks ++ [b] } else s
  | .errorEv => if s.ended then s else { s with ended := true }
  | .endEv => if s.ended then s else { s with ended := true, records := s.records + 1 }
  | .safetyFire => if s.ended then s else { s with ended := true }

def runRespEvents (isHtml : Bool) (events : List RespEvent) : RespState :=
  events.foldl (stepResp isHtml) initRespState

def isTerminalEvent : RespEvent → Bool
  | .dataChunk _ => false
  | _ => true

def firstTerminal (events : List RespEvent) : Option RespEvent :=
  events.find? isTerminalEvent

theorem foldl_stepResp_records (isHtml : Bool) (events : List RespEvent) :
    ∀ s : RespState,
      (events.foldl (stepResp isHtml) s).records =
        if s.ended = false ∧ firstTerminal events = some RespEvent.endEv then s.records + 1
        else s.records := by
  induction events with
  | nil =>
      intro s
      rw [if_neg]
      · rfl
      · rintro ⟨-, h⟩
        cases h
  | cons e evs ih =>
      intro s
      cases e with
      | dataChunk b =>
          rw [List.foldl_cons]
          have hft : firstTerminal (RespEvent.dataChunk b :: evs) = firstTerminal evs := by
            unfold firstTerminal
            exact List.find?_cons_of_neg _ (by simp [isTerminalEvent])
          rw [hft]
          by_cases hhtml : isHtml
          · have hstep : stepResp isHtml s (RespEvent.dataChunk b)
                = { s with chunks := s.chunks ++ [b] } := by
              simp [stepResp, hhtml]
            rw [hstep, ih]
          · have hstep : stepResp isHtml s (RespEvent.dataChunk b) = s := by
              simp [stepResp, hhtml]
            rw [hstep, ih]
      | errorEv =>
          rw [List.foldl_cons]
          have hft : firstTerminal (RespEvent.errorEv :: evs) = some RespEvent.errorEv := by
            unfold firstTerminal
            exact List.find?_cons_of_pos _ (by decide)
          rw [hft]
          rw [if_neg (by rintro ⟨-, h⟩; cases h)]
          by_cases hend : s.ended
          · have hstep : stepResp isHtml s RespEvent.errorEv = s := by simp [stepResp, hend]
            rw [hstep, ih s, if_neg (by rintro ⟨h, -⟩; rw [hend] at h; cases h)]
          · have hstep : stepResp isHtml s RespEvent.errorEv = { s with ended := true } := by
              simp [stepResp, hend]
            rw [hstep, ih, if_neg (by rintro ⟨h, -⟩; cases h)]
      | endEv =>
          rw [List.foldl_cons]
          have hft : firstTerminal (RespEvent.endEv :: evs) = some RespEvent.endEv := by
            unfold firstTerminal
            exact List.find?_cons_of_pos _ (by decide)
          rw [hft]
          by_cases hend : s.ended
          · have hstep : stepResp isHtml s RespEvent.endEv = s := by simp [stepResp, hend]
            rw [hstep, ih s, if_neg (by rintro ⟨h, -⟩; rw [hend] at h; cases h),
              if_neg (by rintro ⟨h, -⟩; rw [hend] at h; cases h)]
          · have hstep : stepResp isHtml s RespEvent.endEv
                = { s with ended := true, records := s.records + 1 } := by
              simp [stepResp, hend]
            rw [hstep, ih, if_neg (by rintro ⟨h, -⟩; cases h),
              if_pos ⟨by simpa using hend, rfl⟩]
      | safetyFire =>
          rw [List.foldl_cons]
          have hft : firstTerminal (RespEvent.safetyFire :: evs) = some RespEvent.safetyFire := by
            unfold firstTerminal
            exact List.find?_cons_of_pos _ (by decide)
          rw [hft]
          rw [if_neg (by rintro ⟨-, h⟩; cases h)]
          by_cases hend : s.ended
          · have hstep : stepResp isHtml s RespEvent.safetyFire = s := by simp [stepResp, hend]
            rw [hstep, ih s, if_neg (by rintro ⟨h, -⟩; rw [hend] at h; cases h)]
          · have hstep : stepResp isHtml s RespEvent.safetyFire = { s with ended := true } := by
              simp [stepResp, hend]
            rw [hstep, ih, if_neg (by rintro ⟨h, -⟩; cases h)]

theorem runRespEvents_records (isHtml : Bool) (events : List RespEvent) :
    (runRespEvents isHtml events).records =
      if firstTerminal events = some RespEvent.endEv then 1 else 0 := by
  unfold runRespEvents
  rw [foldl_stepResp_records]
  by_cases h : firstTerminal events = some RespEvent.endEv
  · rw [if_pos ⟨rfl, h⟩, if_pos h]
    rfl
  · rw [if_neg (by rintro ⟨-, hh⟩; exact h hh), if_neg h]
    rfl

/-- One proxy attempt, as seen by the installed callbacks: either the
upstream response arrived and emitted a stream of events, or the proxy
errored at connection level (`onError`). -/
inductive AttemptOutcome where
  | respEvents (isHtml : Bool) (events : List RespEvent)
  | connError
deriving Repr

/-- Number of `recordHistory` calls a proxy attempt performs. -/
def attemptRecords (targetParses : Bool) (raw : Bool) (outcome : AttemptOutcome) : Nat :=
  if targetParses = false then 0
  else if raw then 0
  else
    match outcome with
    | .respEvents isHtml events => (runRespEvents isHtml events).records
    | .connError => 1

/-- C1 counterexample: a raw-mode proxy attempt whose upstream response
completes normally records zero history entries, because the raw path
(line 107) installs neither `onProxyRes` nor `onError` and those are the
only callers of `recordHistory`; the claim demands exactly one entry for
every attempt, raw mode included. -/
theorem claim_C1_history_counterexample :
    attemptRecords true true (AttemptOutcome.respEvents false [RespEvent.endEv]) = 0 ∧
      (0 : Nat) ≠ 1 := by
  constructor
  · rfl
  · decide

/-- C1 (amended): no proxy attempt ever records more than one history
entry; in rewriting mode an attempt records exactly one entry when its
first terminal event is the upstream response `end` or when `onError`
fires, and zero when the stream errors first or the safety timeout fires
first; raw-mode attempts record none. -/
theorem claim_C1_history_records_amended :
    (∀ (tp raw : Bool) (outcome : AttemptOutcome), attemptRecords tp raw outcome ≤ 1) ∧
      (∀ (isHtml : Bool) (events : List RespEvent),
        attemptRecords true false (AttemptOutcome.respEvents isHtml events)
          = if firstTerminal events = some RespEvent.endEv then 1 else 0) ∧
      attemptRecords true false AttemptOutcome.connError = 1 ∧
      (∀ outcome : AttemptOutcome, attemptRecords true true outcome = 0) := by
  refine ⟨?_, ?_, rfl, fun _ => rfl⟩
  · intro tp raw outcome
    unfold attemptRecords
    by_cases htp : tp = false
    · rw [if_pos htp]
      exact Nat.zero_le 1
    · rw [if_neg htp]
      by_cases hraw : raw
      · rw [if_pos hraw]
        exact Nat.zero_le 1
      · rw [if_neg hraw]
        cases outcome with
        | respEvents isHtml events =>
            show (runRespEvents isHtml events).records ≤ 1
            rw [runRespEvents_records]
            by_cases h : firstTerminal events = some RespEvent.endEv
            · rw [if_pos h]
            · rw [if_neg h]
              exact Nat.zero_le 1
        | connError => exact le_refl 1
  · intro isHtml events
    show (runRespEvents isHtml events).records = _
    rw [runRespEvents_records]

/-! ## Routing and client-input errors (src/server.js 74–83, 234–245)

`/proxy` answers 400 `{error:'Missing target'}` without a target, 400
`{error:'Bad target'}` on an unparsable one; `/go/:oid` answers 400
`{error:'Bad origin id'}` on an undecodable id; `handleProxy` answers 400
`{error:'Invalid target URL'}` when the resolved target does not parse.
All four paths return before `createProxyMiddleware` is invoked, and
`recordHistory` is only called from the proxy callbacks. -/

inductive RouteResponse where
  | clientError (status : Nat) (jsonMessage : List Char)
  | redirect (status : Nat) (location : List Char)
  | proxyStarted (url : UrlParts) (raw insecure : Bool)
deriving DecidableEq, Repr

/-- `handleProxy` up to the invocation of the proxy middleware. -/
def handleProxyRoute (target : List Char) (raw insecure : Bool) : RouteResponse :=
  match parseURL target with
  | none => .clientError 400 ("Invalid target URL".toList)
  | some url => .proxyStarted url raw insecure

/-- The `/proxy` endpoint (query-style entry). -/
def proxyEndpoint (target : Option (List Char)) (rawParam insecureParam : List Char) :
    RouteResponse :=
  match target with
  | none => .clientError 400 ("Missing target".toList)
  | some t =>
      let rawL := rawParam.map Char.toLower
      let raw := (rawL == ['1']) || (rawL == ['t', 'r', 'u', 'e'])
      match parseURL t with
      | none => .clientError 400 ("Bad target".toList)
      | some u =>
          if raw then handleProxyRoute t true (insecureParam == ['1'])
          else .redirect 302
            (litGoSlash ++ encodeOrigin (originString u) ++ u.pathname ++ u.search ++ u.hash)

/-- The `/go/:oid` endpoint (canonical path-style entry).  The source's
`if(!origin)` guard rejects a falsy decode: `null` (the unreachable
`none`) or the empty string. -/
def goEndpoint (oid restPath insecureParam : List Char) : RouteResponse :=
  match decodeOrigin oid with
  | none => .clientError 400 ("Bad origin id".toList)
  | some origin =>
      if origin = [] then .clientError 400 ("Bad origin id".toList)
      else
        let rest := if restPath = [] then ['/'] else restPath
        let rest2 := if rest.head? = some '/' then rest else '/' :: rest
        handleProxyRoute (origin ++ rest2) false (insecureParam == ['1'])

def routeUpstreamAttempted : RouteResponse → Bool
  | .proxyStarted _ _ _ => true
  | _ => false

/-- History entries recorded by a whole request, given how the proxy
attempt (if one started) plays out. -/
def routeRecords (r : RouteResponse) (outcome : AttemptOutcome) : Nat :=
  match r with
  | .proxyStarted _ raw _ => attemptRecords true raw outcome
  | _ => 0

def isClientError400 : RouteResponse → Bool
  | .clientError 400 _ => true
  | _ => false

/-- C5: invalid request inputs produce an immediate 400 with a structured
JSON error body, attempt no upstream call, and record no history entry.
The four error paths of the source are covered on classes where the model
provably coincides with the program: a missing target (always); a target
containing no `:` (such strings cannot carry a scheme, so `new URL`
throws exactly as the model's parser fails); an origin id whose lenient
base64/UTF-8 decode is the empty string (the only falsy value
`decodeOrigin` can actually produce, and precisely what the route's
`if(!origin)` rejects); and a decoded origin-plus-rest containing no `:`
(again guaranteed unparsable).  Client errors are returned before
`createProxyMiddleware` is invoked, and `recordHistory` is reachable only
from the proxy callbacks. -/
theorem claim_C5_client_errors (rawParam insecureParam oid restPath : List Char)
    (t : List Char) (outcome : AttemptOutcome) :
    (proxyEndpoint none rawParam insecureParam
        = .clientError 400 ("Missing target".toList)) ∧
      (':' ∉ t →
        proxyEndpoint (some t) rawParam insecureParam
          = .clientError 400 ("Bad target".toList)) ∧
      (decodeOrigin oid = some [] →
        goEndpoint oid restPath insecureParam
          = .clientError 400 ("Bad origin id".toList)) ∧
      (∀ origin, decodeOrigin oid = some origin → origin ≠ [] →
        ':' ∉ (origin ++ (if (if restPath = [] then ['/'] else restPath).head? = some '/'
            then (if restPath = [] then ['/'] else restPath)
            else '/' :: (if restPath = [] then ['/'] else restPath))) →
        goEndpoint oid restPath insecureParam
          = .clientError 400 ("Invalid target URL".toList)) ∧
      (∀ status msg, isClientError400 (.clientError status msg) = true →
        routeUpstreamAttempted (.clientError status msg) = false ∧
          routeRecords (.clientError status msg) outcome = 0) := by
  refine ⟨rfl, ?_, ?_, ?_, fun status msg _ => ⟨rfl, rfl⟩⟩
  · intro hcolon
    have hp := parseURL_none_of_no_colon t hcolon
    simp only [proxyEndpoint]
    rw [hp]
  · intro hd
    simp only [goEndpoint]
    rw [hd]
    rfl
  · intro origin hd hne hcolon
    have hp := parseURL_none_of_no_colon _ hcolon
    simp only [goEndpoint, handleProxyRoute]
    rw [hd]
    simp only [if_neg hne]
    rw [hp]

/-- Witness for C5: the `/proxy` route without a target, `/proxy` with the
colon-free target `notaurl`, `/go` with the id `!!` (which Node's lenient
decoder turns into the falsy empty string), and `/go` with the id `AA`
(decoding to a NUL byte, which plus `/` has no `:` and is not a URL). -/
theorem claim_C5_client_errors_witness :
    proxyEndpoint (some ("notaurl".toList)) [] [] = .clientError 400 ("Bad target".toList) ∧
      goEndpoint ("!!".toList) [] [] = .clientError 400 ("Bad origin id".toList) ∧
      goEndpoint ("AA".toList) [] [] = .clientError 400 ("Invalid target URL".toList) := by
  refine ⟨?_, ?_, ?_⟩
  · exact (claim_C5_client_errors [] [] ("!!".toList) [] ("notaurl".toList)
      AttemptOutcome.connError).2.1 (by decide)
  · exact (claim_C5_client_errors [] [] ("!!".toList) [] ("notaurl".toList)
      AttemptOutcome.connError).2.2.1 (by decide)
  · exact (claim_C5_client_errors [] [] ("AA".toList) [] ("notaurl".toList)
      AttemptOutcome.connError).2.2.2.1 [Char.ofNat 0] (by decide) (by decide) (by decide)

/-! ## HTML finishing step and rewrite-failure degradation (lines 192–210)

The `end` handler's try/catch: decompress, decode, rewrite; on success it
serves the rewritten body under the upstream status; on any exception it
serves the buffered raw bytes under the same upstream status.  The three
fallible stages are abstract here — the claim is about the surrounding
try/catch, not about zlib. -/

/-- JavaScript `pRes.statusCode || 200`. -/
def statusOr200 : Option Nat → Nat
  | some n => if n = 0 then 200 else n
  | none => 200

def finishHtmlResponse (statusCode : Option Nat) (chunks : List Nat)
    (decompress decodeBody rewriteBody : List Nat → Option (List Nat)) : Nat × List Nat :=
  match ((decompress chunks).bind decodeBody).bind rewriteBody with
  | some body => (statusOr200 statusCode, body)
  | none => (statusOr200 statusCode, chunks)

/-- C6: whatever happens inside the HTML pipeline, the client receives the
upstream status (never a substituted error status); and if any stage of
the pipeline fails after buffering, the body served is exactly the raw
buffered bytes — a rewrite failure is not client-visible. -/
theorem claim_C6_rewrite_failure_degrades (statusCode : Option Nat) (chunks : List Nat)
    (decompress decodeBody rewriteBody : List Nat → Option (List Nat)) :
    (finishHtmlResponse statusCode chunks decompress decodeBody rewriteBody).1
        = statusOr200 statusCode ∧
      (((decompress chunks).bind decodeBody).bind rewriteBody = none →
        finishHtmlResponse statusCode chunks decompress decodeBody rewriteBody
          = (statusOr200 statusCode, chunks)) := by
  constructor
  · unfold finishHtmlResponse
    cases ((decompress chunks).bind decodeBody).bind rewriteBody with
    | some body => rfl
    | none => rfl
  · intro h
    unfold finishHtmlResponse
    rw [h]

/-- Witness for C6: a decompression stage that always fails on a 503
response with buffered bytes `[7, 8]`. -/
theorem claim_C6_rewrite_failure_degrades_witness :
    finishHtmlResponse (some 503) [7, 8] (fun _ => none) some some = (503, [7, 8]) :=
  (claim_C6_rewrite_failure_degrades (some 503) [7, 8] (fun _ => none) some some).2 rfl

/-! ## History store (src/historyStore.js)

Two backends chosen once at startup: better-sqlite3 (table `history`,
`INSERT`, `SELECT * ... ORDER BY created_at DESC LIMIT ?`,
`COUNT(*) / COUNT(DISTINCT target_host) / AVG(duration_ms)`), or on init
failure an in-memory array `mem` with `mem.push(...)` on record,
`mem.slice(-limit).reverse()` for recent, a linear scan for stats, and a
periodic snapshot `fs.writeFileSync(..., JSON.stringify(mem.slice(-5000)))`.

The SQLite query semantics are modelled over the table's row list: the
`ORDER BY created_at DESC` result is a stable descending sort on
`created_at`, `LIMIT n` is `take n`, `COUNT`/`AVG` are the evident
aggregates with `AVG` NULL (`none`) on an empty table; exact rational
arithmetic stands in for SQLite's doubles.  `created_at` is a numeric
timestamp (both backends store monotone wall-clock strings). -/

structure HistoryEntry where
  id : String
  method : String
  url : String
  target_host : String
  status : Nat
  duration_ms : Nat
  user_agent : String
  ip : String
  created_at : Nat
deriving DecidableEq, Repr

/-- `mem.push(entry)` — no cap is applied on record. -/
def recordHistoryMem (mem : List HistoryEntry) (e : HistoryEntry) : List HistoryEntry :=
  mem ++ [e]

/-- `INSERT INTO history ...` — append a row, no cap. -/
def recordHistorySqlite (tbl : List HistoryEntry) (e : HistoryEntry) : List HistoryEntry :=
  tbl ++ [e]

/-- JavaScript `arr.slice(-k)`: `-0 === 0`, so for `k = 0` the *whole*
array is returned; otherwise the last `min k len` elements. -/
def jsSliceNeg (l : List HistoryEntry) (k : Nat) : List HistoryEntry :=
  if k = 0 then l else l.drop (l.length - k)

/-- `mem.slice(-limit).reverse()`. -/
def getRecentHistoryMem (mem : List HistoryEntry) (limit : Nat) : List HistoryEntry :=
  (jsSliceNeg mem limit).reverse

/-- The snapshot body `mem.slice(-5000)` ("keep last 5k"); `mem` itself is
not truncated. -/
def persistMemorySnapshot (mem : List HistoryEntry) : List HistoryEntry :=
  jsSliceNeg mem 5000

def sumDuration (l : List HistoryEntry) : Nat := (l.map (·.duration_ms)).sum

structure MemStats where
  total : Nat
  distinct_hosts : Nat
  avg_duration : ℚ
deriving DecidableEq, Repr

/-- The fallback `getStats` linear scan: `new Set(map target_host).size`,
`reduce`-sum of durations divided by length, `0` for an empty store. -/
def getStatsMem (mem : List HistoryEntry) : MemStats :=
  { total := mem.length
    distinct_hosts := (mem.map (·.target_host)).dedup.length
    avg_duration :=
      if mem.length = 0 then 0 else (sumDuration mem : ℚ) / (mem.length : ℚ) }

def sqlOrderDesc (a b : HistoryEntry) : Prop := b.created_at ≤ a.created_at

instance : DecidableRel sqlOrderDesc := fun a b => Nat.decLe b.created_at a.created_at

instance : IsTotal HistoryEntry sqlOrderDesc :=
  ⟨fun a b => le_total b.created_at a.created_at⟩

instance : IsTrans HistoryEntry sqlOrderDesc :=
  ⟨fun _ _ _ hab hbc => le_trans hbc hab⟩

/-- `SELECT * FROM history ORDER BY created_at DESC LIMIT ?`. -/
def recentSqlite (tbl : List HistoryEntry) (limit : Nat) : List HistoryEntry :=
  (List.insertionSort sqlOrderDesc tbl).take limit

structure SqlStats where
  total : Nat
  distinct_hosts : Nat
  avg_duration : Option ℚ
deriving DecidableEq, Repr

/-- `SELECT COUNT(*), COUNT(DISTINCT target_host), AVG(duration_ms)`;
SQL `AVG` over zero rows is NULL. -/
def getStatsSqlite (tbl : List HistoryEntry) : SqlStats :=
  { total := tbl.length
    distinct_hosts := (tbl.map (·.target_host)).dedup.length
    avg_duration :=
      if tbl.length = 0 then none
      else some ((sumDuration tbl : ℚ) / (tbl.length : ℚ)) }

/-- The in-memory `recent` is, for a positive limit, the newest-first
truncation of the log. -/
theorem getRecentHistoryMem_eq_take (mem : List HistoryEntry) (n : Nat) (hn : 1 ≤ n) :
    getRecentHistoryMem mem n = mem.reverse.take n := by
  unfold getRecentHistoryMem jsSliceNeg
  rw [if_neg (by omega)]
  rw [List.reverse_drop]
  by_cases h : n ≤ mem.length
  · rw [show mem.length - (mem.length - n) = n by omega]
  · rw [show mem.length - (mem.length - n) = mem.length by omega]
    rw [List.take_of_length_le (by simp), List.take_of_length_le (by simp; omega)]

def sampleEntry : HistoryEntry :=
  { id := "h1", method := "GET", url := "https://example.com/", target_host := "example.com",
    status := 200, duration_ms := 5, user_agent := "", ip := "127.0.0.1", created_at := 0 }

def sampleEntry2 : HistoryEntry :=
  { id := "h2", method := "GET", url := "https://other.org/x", target_host := "other.org",
    status := 404, duration_ms := 15, user_agent := "", ip := "127.0.0.1", created_at := 1 }

/-- C8 counterexample: `getRecentHistory(0)` on the fallback backend
returns the whole log — JavaScript `slice(-0)` is `slice(0)` — so with one
stored entry it returns one entry, more than `n = 0`. -/
theorem claim_C8_recent_counterexample :
    getRecentHistoryMem [sampleEntry] 0 = [sampleEntry] ∧
      ¬((getRecentHistoryMem [sampleEntry] 0).length ≤ 0) := by
  constructor
  · rfl
  · decide

/-- C8 (amended): the SQLite backend returns at most `n` rows ordered
newest-first for every `n`; the in-memory backend does so for every
`n ≥ 1` (where it equals the newest-first truncation of the log), but at
`n = 0` it returns the entire log newest-first instead of nothing. -/
theorem claim_C8_recent_amended :
    (∀ (tbl : List HistoryEntry) (n : Nat),
        (recentSqlite tbl n).length ≤ n ∧ List.Sorted sqlOrderDesc (recentSqlite tbl n)) ∧
      (∀ (mem : List HistoryEntry) (n : Nat), 1 ≤ n →
        getRecentHistoryMem mem n = mem.reverse.take n) ∧
      (∀ mem : List HistoryEntry, getRecentHistoryMem mem 0 = mem.reverse) := by
  refine ⟨fun tbl n => ⟨?_, ?_⟩, getRecentHistoryMem_eq_take, fun mem => rfl⟩
  · unfold recentSqlite
    rw [List.length_take]
    exact min_le_left n _
  · exact List.Pairwise.sublist (List.take_sublist n _)
      (List.sorted_insertionSort sqlOrderDesc tbl)

/-- Witness for the amended C8 at `n = 1` on a one-entry log. -/
theorem claim_C8_recent_amended_witness :
    getRecentHistoryMem [sampleEntry] 1 = [sampleEntry] := by
  rw [claim_C8_recent_amended.2.1 [sampleEntry] 1 (by decide)]
  rfl

theorem orderedInsert_append_of_forall_not (a : HistoryEntry) (m : List HistoryEntry)
    (h : ∀ x ∈ m, ¬sqlOrderDesc a x) :
    List.orderedInsert sqlOrderDesc a m = m ++ [a] := by
  induction m with
  | nil => rfl
  | cons b m ih =>
      rw [List.orderedInsert, if_neg (h b (by simp)), ih (fun x hx => h x (by simp [hx]))]
      rfl

/-- A strictly chronologically ascending log (the order both backends
receive entries in, timestamps strictly increasing). -/
def strictChronological (l : List HistoryEntry) : Prop :=
  List.Pairwise (fun a b => a.created_at < b.created_at) l

instance : DecidablePred strictChronological := fun l =>
  List.instDecidablePairwise l

/-- Sorting a strictly ascending log by `created_at` descending reverses it. -/
theorem insertionSort_desc_of_ascending (l : List HistoryEntry)
    (h : strictChronological l) :
    List.insertionSort sqlOrderDesc l = l.reverse := by
  induction l with
  | nil => rfl
  | cons a l ih =>
      rw [List.insertionSort, ih (List.Pairwise.of_cons h)]
      have hlt : ∀ x ∈ l.reverse, ¬sqlOrderDesc a x := by
        intro x hx
        have := (List.pairwise_cons.mp h).1 x (List.mem_reverse.mp hx)
        unfold sqlOrderDesc
        omega
      rw [orderedInsert_append_of_forall_not a l.reverse hlt, List.reverse_cons]

/-- C9 counterexample: on the empty store the SQLite aggregate returns
`AVG(duration_ms) = NULL` while the fallback linear scan returns `0` —
the zero-entry case of the claim fails. -/
theorem claim_C9_stats_counterexample :
    (getStatsSqlite []).avg_duration = none ∧
      (getStatsMem []).avg_duration = 0 ∧
      (getStatsSqlite []).avg_duration ≠ some ((getStatsMem []).avg_duration) := by
  refine ⟨rfl, rfl, ?_⟩
  intro h
  cases h

/-- C9 (amended): fed the same entries, the two backends agree on the
total count and the distinct-host count; they agree on the average
duration whenever at least one entry exists (on the empty store SQLite
yields NULL, the fallback 0); and for a strictly chronological log and
every limit `n ≥ 1` the two `recent` reads return the same entries in the
same order (at `n = 0` they differ: SQLite returns nothing, the fallback
everything). -/
theorem claim_C9_backend_equivalence_amended (entries : List HistoryEntry) :
    (getStatsSqlite entries).total = (getStatsMem entries).total ∧
      (getStatsSqlite entries).distinct_hosts = (getStatsMem entries).distinct_hosts ∧
      (entries ≠ [] →
        (getStatsSqlite entries).avg_duration = some ((getStatsMem entries).avg_duration)) ∧
      (strictChronological entries → ∀ n, 1 ≤ n →
        recentSqlite entries n = getRecentHistoryMem entries n) := by
  refine ⟨rfl, rfl, ?_, ?_⟩
  · intro hne
    have hlen : entries.length ≠ 0 := by
      intro h
      exact hne (List.length_eq_zero.mp h)
    unfold getStatsSqlite getStatsMem
    simp only [if_neg hlen]
  · intro hchron n hn
    unfold recentSqlite
    rw [insertionSort_desc_of_ascending entries hchron,
      getRecentHistoryMem_eq_take entries n hn]

/-- Witness for the amended C9 on a concrete two-entry log. -/
theorem claim_C9_backend_equivalence_witness :
    (getStatsSqlite [sampleEntry, sampleEntry2]).avg_duration
        = some ((getStatsMem [sampleEntry, sampleEntry2]).avg_duration) ∧
      recentSqlite [sampleEntry, sampleEntry2] 1
        = getRecentHistoryMem [sampleEntry, sampleEntry2] 1 := by
  have h := claim_C9_backend_equivalence_amended [sampleEntry, sampleEntry2]
  exact ⟨h.2.2.1 (by decide), h.2.2.2 (by decide) 1 (by decide)⟩

theorem foldl_recordHistoryMem_length (es : List HistoryEntry) :
    ∀ acc : List HistoryEntry, (es.foldl recordHistoryMem acc).length
      = acc.length + es.length := by
  induction es with
  | nil => intro acc; simp
  | cons e es ih =>
      intro acc
      rw [List.foldl_cons, ih]
      unfold recordHistoryMem
      rw [List.length_append, List.length_cons]
      simp only [List.length_cons, List.length_nil]
      omega

/-- C10 counterexample: `recordHistory` in fallback mode is a plain
`mem.push` with no truncation, so after 5001 recorded entries the
in-memory state holds 5001 entries — more than the claimed 5000-entry
cap.  Only the periodic snapshot file is capped (`mem.slice(-5000)`). -/
theorem claim_C10_cap_counterexample :
    ((List.replicate 5001 sampleEntry).foldl recordHistoryMem []).length = 5001 ∧
      5000 < 5001 := by
  constructor
  · rw [foldl_recordHistoryMem_length, List.length_replicate, List.length_nil]
  · decide

/-- C10 (amended): the fallback's periodic *snapshot* keeps at most the
last 5000 entries, but the in-memory list itself is unbounded — each
`recordHistory` call appends one entry, so after `k` calls the state
holds `k` more entries than before; the SQLite store likewise grows
without cap. -/
theorem claim_C10_cap_amended :
    (∀ mem : List HistoryEntry, (persistMemorySnapshot mem).length ≤ 5000) ∧
      (∀ (mem : List HistoryEntry) (e : HistoryEntry),
        (recordHistoryMem mem e).length = mem.length + 1) ∧
      (∀ (es acc : List HistoryEntry),
        (es.foldl recordHistoryMem acc).length = acc.length + es.length) ∧
      (∀ (tbl : List HistoryEntry) (e : HistoryEntry),
        (recordHistorySqlite tbl e).length = tbl.length + 1) := by
  refine ⟨?_, ?_, foldl_recordHistoryMem_length, ?_⟩
  · intro mem
    unfold persistMemorySnapshot jsSliceNeg
    rw [if_neg (by omega), List.length_drop]
    omega
  · intro mem e
    unfold recordHistoryMem
    rw [List.length_append, List.length_cons]
    simp only [List.length_nil]
  · intro tbl e
    unfold recordHistorySqlite
    rw [List.length_append, List.length_cons]
    simp only [List.length_nil]
